import Mathlib

/-!
Shallow embedding of the `mew-sh/dotenv` parsing/encoding engine
(`parser.go` and the marshalling half of `dotenv.go`).

Go strings are modelled as `List Char`; all source strings in the claims are
ASCII, where byte-wise and rune-wise scanning coincide.  The external process
environment (`os.LookupEnv`) is modelled as an injected lookup function
`Str → Option Str`, and the Go `map[string]string` as an association list
with overwrite-on-insert semantics.
-/

abbrev Str := List Char

abbrev EnvMap := List (Str × Str)

/-- Character class of Go's `unicode.IsSpace`, used by `strings.TrimSpace`. -/
def isGoSpace (c : Char) : Bool :=
  c == ' ' || c == '\t' || c == '\n' || c == '\x0b' || c == '\x0c' || c == '\r' ||
  c.toNat == 0x85 || c.toNat == 0xA0 || c.toNat == 0x1680 ||
  (decide (0x2000 ≤ c.toNat) && decide (c.toNat ≤ 0x200A)) ||
  c.toNat == 0x2028 || c.toNat == 0x2029 || c.toNat == 0x202F ||
  c.toNat == 0x205F || c.toNat == 0x3000

/-- Character class `\s` of Go's regexp package (RE2): `[\t\n\f\r ]`. -/
def isSpaceRE (c : Char) : Bool :=
  c == ' ' || c == '\t' || c == '\n' || c == '\x0c' || c == '\r'

/-- `[A-Za-z_]`, the first character of a key identifier. -/
def isIdentStart (c : Char) : Bool :=
  (decide (65 ≤ c.toNat) && decide (c.toNat ≤ 90)) ||
  (decide (97 ≤ c.toNat) && decide (c.toNat ≤ 122)) ||
  c == '_'

/-- `[A-Za-z0-9_]`, a subsequent character of a key identifier. -/
def isIdentChar (c : Char) : Bool :=
  isIdentStart c || (decide (48 ≤ c.toNat) && decide (c.toNat ≤ 57))

/-- A whole string matching `[A-Za-z_][A-Za-z0-9_]*`. -/
def identStr : Str → Bool
  | [] => false
  | c :: rest => isIdentStart c && rest.all isIdentChar

/-- Drop the longest suffix whose characters satisfy `p`. -/
def dropTrailing (p : Char → Bool) (s : Str) : Str :=
  (s.reverse.dropWhile p).reverse

/-- Go `strings.TrimSpace`. -/
def trimSpace (s : Str) : Str :=
  dropTrailing isGoSpace (s.dropWhile isGoSpace)

/-- Lookup in the accumulated mapping (Go `env[key]`). -/
def envLookup : EnvMap → Str → Option Str
  | [], _ => none
  | (k, v) :: rest, key => if k = key then some v else envLookup rest key

/-- Insert with overwrite (Go `result[key] = value`). -/
def envInsert : EnvMap → Str → Str → EnvMap
  | [], key, value => [(key, value)]
  | (k, v) :: rest, key, value =>
    if k = key then (key, value) :: rest else (k, v) :: envInsert rest key value

/-- `dropCR` of `bufio.ScanLines`: strip one trailing carriage return. -/
def dropCR (l : Str) : Str :=
  if l.getLast? = some '\r' then l.dropLast else l

/-- Split on every newline; always returns at least one (possibly empty) piece. -/
def splitRaw : Str → List Str
  | [] => [[]]
  | c :: rest =>
    if c = '\n' then [] :: splitRaw rest
    else
      match splitRaw rest with
      | [] => [[c]]
      | p :: ps => (c :: p) :: ps

/-- The sequence of lines produced by `bufio.Scanner` with `bufio.ScanLines`:
split at newlines, no empty token after a final newline, and a single
trailing carriage return removed from each line. -/
def splitLines (s : Str) : List Str :=
  if s = [] then []
  else
    let ps := splitRaw s
    let ps := if ps.getLast? = some [] then ps.dropLast else ps
    ps.map dropCR

/-- The scanning loop of `Parser.removeInlineComment`: `quote` is `none` in the
unquoted state and `some q` when inside quotes opened by `q`; `prev` is the
previously scanned character (`line[i-1]`); `acc` holds the consumed prefix
reversed. -/
def stripAux : Str → Option Char → Option Char → Str → Str
  | [], _, _, acc => acc.reverse
  | c :: rest, none, _, acc =>
    if c = '"' ∨ c = '\'' then stripAux rest (some c) (some c) (c :: acc)
    else if c = '#' then trimSpace acc.reverse
    else stripAux rest none (some c) (c :: acc)
  | c :: rest, some q, prev, acc =>
    match prev with
    | some p =>
      if c = q ∧ p ≠ '\\' then stripAux rest none (some c) (c :: acc)
      else stripAux rest (some q) (some c) (c :: acc)
    | none => stripAux rest (some q) (some c) (c :: acc)

/-- `Parser.removeInlineComment`: remove an inline comment unless the `#`
occurs inside quotes. -/
def removeInlineComment (line : Str) : Str :=
  stripAux line none none []

/-- The part `([A-Za-z_][A-Za-z0-9_]*)\s*[=:]\s*(.*)$` shared by `lineRegex`
and `exportRegex`, matched with RE2 leftmost-first (greedy) semantics; the
final `(.*)$` fails when a newline remains in the captured remainder. -/
def matchKeyVal : Str → Option (Str × Str)
  | [] => none
  | c :: r2 =>
    if isIdentStart c then
      let key := c :: r2.takeWhile isIdentChar
      let r3 := (r2.dropWhile isIdentChar).dropWhile isSpaceRE
      match r3 with
      | sep :: r4 =>
        if sep = '=' ∨ sep = ':' then
          let v := r4.dropWhile isSpaceRE
          if v.contains '\n' then none else some (key, v)
        else none
      | [] => none
    else none

/-- `lineRegex.FindStringSubmatch`: `^\s*([A-Za-z_][A-Za-z0-9_]*)\s*[=:]\s*(.*)$`. -/
def matchLine (line : Str) : Option (Str × Str) :=
  matchKeyVal (line.dropWhile isSpaceRE)

/-- `exportRegex.FindStringSubmatch`:
`^\s*export\s+([A-Za-z_][A-Za-z0-9_]*)\s*[=:]\s*(.*)$`. -/
def matchExport (line : Str) : Option (Str × Str) :=
  let r1 := line.dropWhile isSpaceRE
  if r1.take 6 = ['e', 'x', 'p', 'o', 'r', 't'] then
    match r1.drop 6 with
    | c :: rest => if isSpaceRE c then matchKeyVal ((c :: rest).dropWhile isSpaceRE) else none
    | [] => none
  else none

/-- The single-escape table of `Parser.unescapeDoubleQuoted`: what a
backslash followed by `next` decodes to. -/
def escPair (next : Char) : Str :=
  if next = 'n' then ['\n']
  else if next = 'r' then ['\r']
  else if next = 't' then ['\t']
  else if next = '\\' then ['\\']
  else if next = '"' then ['"']
  else if next = '\'' then ['\'']
  else ['\\', next]

/-- `Parser.unescapeDoubleQuoted`: left-to-right escape decoding; a trailing
backslash (no following character) is emitted literally. -/
def unescapeDoubleQuoted : Str → Str
  | [] => []
  | c :: rest =>
    if c = '\\' then
      match rest with
      | next :: rest2 => escPair next ++ unescapeDoubleQuoted rest2
      | [] => [c]
    else c :: unescapeDoubleQuoted rest

/-- `Parser.parseValue`: trim, strip a matching quote pair when present
(escape-decoding only the double-quoted case), otherwise return the trimmed
unquoted token.  The Go function's error result is always `nil`. -/
def parseValue (value : Str) : Str :=
  let v := trimSpace value
  if v = [] then []
  else if 2 ≤ v.length ∧
      ((v.head? = some '"' ∧ v.getLast? = some '"') ∨
       (v.head? = some '\'' ∧ v.getLast? = some '\'')) then
    let inner := (v.drop 1).dropLast
    if v.head? = some '"' then unescapeDoubleQuoted inner else inner
  else trimSpace v

/-- Result of `Parser.parseLine`: a hard error, a skipped line (Go returns an
empty key), or a parsed entry. -/
inductive LineResult where
  | err : LineResult
  | skip : LineResult
  | entry : Str → Str → LineResult
deriving DecidableEq

/-- `Parser.parseLine`: strip inline comments, try the export form, then the
generic form; a remaining non-blank line is a hard error. -/
def parseLine (line : Str) : LineResult :=
  match matchExport (removeInlineComment line) with
  | some (k, raw) => .entry k (parseValue (trimSpace raw))
  | none =>
    match matchLine (removeInlineComment line) with
    | some (k, raw) => .entry k (parseValue (trimSpace raw))
    | none => if trimSpace (removeInlineComment line) ≠ [] then .err else .skip

/-- The replacement function inside `Parser.expandVariables`: look the name up
in the accumulated mapping, then in the process environment, else return the
empty string. -/
def resolveVar (osEnv : Str → Option Str) (env : EnvMap) (name : Str) : Str :=
  match envLookup env name with
  | some v => v
  | none =>
    match osEnv name with
    | some v => v
    | none => []

/-- The scan of `expandVarRegex.ReplaceAllStringFunc` over the value, with
pattern `\$\{([^}]+)\}|\$([A-Za-z_][A-Za-z0-9_]*)` (leftmost-first):
at a `$`, a brace reference `${body}` with a nonempty `}`-free body wins,
else a bare identifier reference, else the `$` is literal text.  The fuel
argument (instantiated with the string length) only serves termination. -/
def expandGo (osEnv : Str → Option Str) (env : EnvMap) : Nat → Str → Str
  | _, [] => []
  | 0, _ :: _ => []
  | fuel + 1, c :: rest =>
    if c = '$' then
      match rest with
      | [] => ['$']
      | d :: rest2 =>
        if d = '{' then
          let body := rest2.takeWhile (fun e => e ≠ '}')
          let rest3 := rest2.dropWhile (fun e => e ≠ '}')
          if body = [] then '$' :: expandGo osEnv env fuel rest
          else if rest3.head? = some '}' then
            resolveVar osEnv env body ++ expandGo osEnv env fuel rest3.tail
          else '$' :: expandGo osEnv env fuel rest
        else if isIdentStart d then
          let name := d :: rest2.takeWhile isIdentChar
          resolveVar osEnv env name ++ expandGo osEnv env fuel (rest2.dropWhile isIdentChar)
        else '$' :: expandGo osEnv env fuel rest
    else c :: expandGo osEnv env fuel rest

/-- `Parser.expandVariables`. -/
def expandVariables (osEnv : Str → Option Str) (env : EnvMap) (value : Str) : Str :=
  expandGo osEnv env value.length value

/-- The scanning loop of `Parser.Parse`: skip blank and `#`-prefixed lines,
classify the rest, expand when enabled, and insert; a malformed line aborts
the whole parse with its 1-based physical line number. -/
def parseLinesGo (osEnv : Str → Option Str) (expandVars : Bool) :
    List Str → Nat → EnvMap → Except Nat EnvMap
  | [], _, result => .ok result
  | l :: ls, n, result =>
    let line := trimSpace l
    if line = [] ∨ line.head? = some '#' then parseLinesGo osEnv expandVars ls (n + 1) result
    else
      match parseLine line with
      | .err => .error n
      | .skip => parseLinesGo osEnv expandVars ls (n + 1) result
      | .entry k v =>
        let v' := if expandVars then expandVariables osEnv result v else v
        parseLinesGo osEnv expandVars ls (n + 1) (envInsert result k v')

/-- `Parser.Parse` over an in-memory input: the whole text is split into
scanner lines and folded through the parsing loop starting from the empty
mapping.  A `.error n` models Go's `nil` map plus an error naming line `n`. -/
def runParse (osEnv : Str → Option Str) (expandVars : Bool) (input : Str) :
    Except Nat EnvMap :=
  parseLinesGo osEnv expandVars (splitLines input) 1 []

/-- `needsQuoting`: a value must be quoted when it is empty or contains one of
the nine special characters. -/
def needsQuoting (value : Str) : Bool :=
  if value = [] then true
  else value.any (fun c =>
    c == ' ' || c == '\t' || c == '\n' || c == '\r' || c == '"' ||
    c == '\'' || c == '\\' || c == '#' || c == '$')

/-- Go `strings.ReplaceAll` with a one-character pattern. -/
def repChar (old : Char) (new : Str) (s : Str) : Str :=
  s.flatMap (fun c => if c = old then new else [c])

/-- `escapeValue`: the five sequential `strings.ReplaceAll` passes, applied in
source order (backslash first, tab last). -/
def escapeValue (v : Str) : Str :=
  repChar '\t' ['\\', 't']
    (repChar '\r' ['\\', 'r']
      (repChar '\n' ['\\', 'n']
        (repChar '"' ['\\', '"']
          (repChar '\\' ['\\', '\\'] v))))

/-- `formatEnvLine`: emit `KEY=value` verbatim, or `KEY="escaped"`. -/
def formatEnvLine (key value : Str) : Str :=
  if ¬ needsQuoting value then key ++ '=' :: value
  else key ++ '=' :: '"' :: (escapeValue value ++ ['"'])

/-- Byte-wise (equivalently code-point-wise) lexicographic `≤` on strings, the
order of Go's `sort.Strings`. -/
def strLeB : Str → Str → Bool
  | [], _ => true
  | _ :: _, [] => false
  | a :: as, b :: bs =>
    if a.toNat < b.toNat then true
    else if b.toNat < a.toNat then false
    else strLeB as bs

/-- `strLeB` as a relation. -/
def strLe (a b : Str) : Prop := strLeB a b = true

instance : DecidableRel strLe := fun a b => by unfold strLe; infer_instance

/-- `sort.Strings`: the keys in ascending lexicographic order. -/
def sortStrs (l : List Str) : List Str :=
  List.insertionSort strLe l

/-- Go `strings.Join` with a fixed separator. -/
def joinSep (sep : Str) : List Str → Str
  | [] => []
  | [l] => l
  | l :: ls => l ++ sep ++ joinSep sep ls

/-- `Marshal`: serialize a mapping, keys sorted, one formatted line per key,
joined by single newlines.  The Go function's error result is always `nil`. -/
def Marshal (env : EnvMap) : Str :=
  if env = [] then []
  else
    let keys := sortStrs (env.map Prod.fst)
    joinSep ['\n'] (keys.map (fun k => formatEnvLine k ((envLookup env k).getD [])))

/-!  Spec-side definitions, written from the specification's words, used to
state the refinement claims about the encoder. -/

/-- The special characters listed by the spec for the quoting decision. -/
def specialChars : List Char := [' ', '\t', '\n', '\r', '"', '\'', '\\', '#', '$']

/-- Modelled from the spec: a value requires quoting iff it is empty or
contains a special character. -/
def needsQuotingSpec (v : Str) : Bool :=
  v = [] ∨ v.any (fun c => c ∈ specialChars)

/-- Modelled from the spec: per-character escaping for double-quoted output. -/
def escChar (c : Char) : Str :=
  if c = '\\' then ['\\', '\\']
  else if c = '"' then ['\\', '"']
  else if c = '\n' then ['\\', 'n']
  else if c = '\r' then ['\\', 'r']
  else if c = '\t' then ['\\', 't']
  else [c]

/-- Modelled from the spec: escape a value character by character. -/
def escapeSpec (v : Str) : Str := v.flatMap escChar

/-- Modelled from the spec: the single line emitted for one key. -/
def specLine (k v : Str) : Str :=
  if needsQuotingSpec v then k ++ '=' :: '"' :: (escapeSpec v ++ ['"'])
  else k ++ '=' :: v

/-- A value character that survives the round trip: not one of the encoder's
special characters and not white space. -/
def safeChar (c : Char) : Bool :=
  !(isGoSpace c) && !(c == '"') && !(c == '\'') && !(c == '\\') &&
  !(c == '#') && !(c == '$')

/-- A round-trip-safe value: every character safe. -/
def safeVal (v : Str) : Bool := v.all safeChar

/-- The canonical key-sorted association list a parse of `Marshal env`
produces: each sorted key paired with its value in `env`. -/
def canonPairs (env : EnvMap) : EnvMap :=
  (sortStrs (env.map Prod.fst)).map (fun k => (k, (envLookup env k).getD []))

/-- A physical line at which `Parser.Parse` aborts: non-blank, not a comment
line, and classified as malformed by `parseLine`. -/
def effMalformed (l : Str) : Prop :=
  ¬ (trimSpace l = [] ∨ (trimSpace l).head? = some '#') ∧ parseLine (trimSpace l) = .err

instance (l : Str) : Decidable (effMalformed l) := by unfold effMalformed; infer_instance

/-! ### Character-class lemmas -/

theorem toNat_mem_of_goSpace {c : Char} (h : isGoSpace c = true) :
    c.toNat = 32 ∨ c.toNat = 9 ∨ c.toNat = 10 ∨ c.toNat = 11 ∨ c.toNat = 12 ∨
    c.toNat = 13 ∨ c.toNat = 0x85 ∨ c.toNat = 0xA0 ∨ c.toNat = 0x1680 ∨
    (0x2000 ≤ c.toNat ∧ c.toNat ≤ 0x200A) ∨ c.toNat = 0x2028 ∨ c.toNat = 0x2029 ∨
    c.toNat = 0x202F ∨ c.toNat = 0x205F ∨ c.toNat = 0x3000 := by
  simp only [isGoSpace, Bool.or_eq_true, beq_iff_eq, Bool.and_eq_true,
    decide_eq_true_eq] at h
  rcases h with ((((((((((((((h | h) | h) | h) | h) | h) | h) | h) | h) | h) | h) | h) | h) | h) | h) <;>
    first
      | (subst h; decide)
      | omega

theorem notGoSpace_of_printable {c : Char} (hlo : 33 ≤ c.toNat) (hhi : c.toNat ≤ 126) :
    isGoSpace c = false := by
  cases hc : isGoSpace c with
  | false => rfl
  | true => exact absurd (toNat_mem_of_goSpace hc) (by omega)

theorem toNat_mem_of_spaceRE {c : Char} (h : isSpaceRE c = true) :
    c.toNat = 32 ∨ c.toNat = 9 ∨ c.toNat = 10 ∨ c.toNat = 12 ∨ c.toNat = 13 := by
  simp only [isSpaceRE, Bool.or_eq_true, beq_iff_eq] at h
  rcases h with (((h | h) | h) | h) | h <;> (subst h; decide)

theorem notSpaceRE_of_printable {c : Char} (hlo : 33 ≤ c.toNat) (hhi : c.toNat ≤ 126) :
    isSpaceRE c = false := by
  cases hc : isSpaceRE c with
  | false => rfl
  | true => exact absurd (toNat_mem_of_spaceRE hc) (by omega)

theorem goSpace_of_spaceRE {c : Char} (h : isSpaceRE c = true) : isGoSpace c = true := by
  simp only [isSpaceRE, Bool.or_eq_true, beq_iff_eq] at h
  rcases h with (((h | h) | h) | h) | h <;> (subst h; decide)

theorem ranges_of_identStart {c : Char} (h : isIdentStart c = true) :
    (65 ≤ c.toNat ∧ c.toNat ≤ 90) ∨ (97 ≤ c.toNat ∧ c.toNat ≤ 122) ∨ c.toNat = 95 := by
  simp only [isIdentStart, Bool.or_eq_true, Bool.and_eq_true, decide_eq_true_eq,
    beq_iff_eq] at h
  rcases h with (h | h) | h
  · exact Or.inl h
  · exact Or.inr (Or.inl h)
  · subst h; decide

theorem identChar_of_identStart {c : Char} (h : isIdentStart c = true) :
    isIdentChar c = true := by
  simp [isIdentChar, h]

theorem ranges_of_identChar {c : Char} (h : isIdentChar c = true) :
    (48 ≤ c.toNat ∧ c.toNat ≤ 57) ∨ (65 ≤ c.toNat ∧ c.toNat ≤ 90) ∨
    (97 ≤ c.toNat ∧ c.toNat ≤ 122) ∨ c.toNat = 95 := by
  simp only [isIdentChar, Bool.or_eq_true, Bool.and_eq_true, decide_eq_true_eq] at h
  rcases h with h | h
  · rcases ranges_of_identStart h with h | h | h
    · exact Or.inr (Or.inl h)
    · exact Or.inr (Or.inr (Or.inl h))
    · exact Or.inr (Or.inr (Or.inr h))
  · exact Or.inl h

theorem identChar_printable {c : Char} (h : isIdentChar c = true) :
    33 ≤ c.toNat ∧ c.toNat ≤ 126 := by
  have := ranges_of_identChar h
  omega

/-- An identifier character differs from any character whose code point lies
outside the identifier ranges. -/
theorem identChar_ne {c : Char} (h : isIdentChar c = true) {d : Char}
    (hd : ¬ ((48 ≤ d.toNat ∧ d.toNat ≤ 57) ∨ (65 ≤ d.toNat ∧ d.toNat ≤ 90) ∨
      (97 ≤ d.toNat ∧ d.toNat ≤ 122) ∨ d.toNat = 95)) : c ≠ d :=
  fun he => hd (he ▸ ranges_of_identChar h)

theorem identChar_notGoSpace {c : Char} (h : isIdentChar c = true) :
    isGoSpace c = false :=
  notGoSpace_of_printable (identChar_printable h).1 (identChar_printable h).2

theorem identChar_notSpaceRE {c : Char} (h : isIdentChar c = true) :
    isSpaceRE c = false :=
  notSpaceRE_of_printable (identChar_printable h).1 (identChar_printable h).2

theorem identStr_all {k : Str} (h : identStr k = true) : ∀ c ∈ k, isIdentChar c = true := by
  cases k with
  | nil => simp [identStr] at h
  | cons c t =>
    simp only [identStr, Bool.and_eq_true, List.all_eq_true] at h
    intro d hd
    rcases List.mem_cons.1 hd with rfl | hdt
    · exact identChar_of_identStart h.1
    · exact h.2 d hdt

theorem safeChar_elim {c : Char} (h : safeChar c = true) :
    isGoSpace c = false ∧ c ≠ '"' ∧ c ≠ '\'' ∧ c ≠ '\\' ∧ c ≠ '#' ∧ c ≠ '$' := by
  simp only [safeChar, Bool.and_eq_true, Bool.not_eq_true', beq_eq_false_iff_ne,
    ne_eq] at h
  tauto

theorem safeChar_notSpaceRE {c : Char} (h : safeChar c = true) : isSpaceRE c = false := by
  cases hc : isSpaceRE c with
  | false => rfl
  | true =>
    have h2 := (safeChar_elim h).1
    rw [goSpace_of_spaceRE hc] at h2
    exact h2

/-! ### Trim lemmas -/

theorem dropWhile_eq_self_of_all {p : Char → Bool} {s : Str}
    (h : ∀ c ∈ s, p c = false) : s.dropWhile p = s := by
  cases s with
  | nil => rfl
  | cons c t => simp [List.dropWhile_cons, h c (List.mem_cons_self c t)]

theorem trimSpace_eq_self {s : Str} (h : ∀ c ∈ s, isGoSpace c = false) :
    trimSpace s = s := by
  unfold trimSpace dropTrailing
  rw [dropWhile_eq_self_of_all h,
    dropWhile_eq_self_of_all (fun c hc => h c (List.mem_reverse.1 hc)),
    List.reverse_reverse]

/-! ### takeWhile / dropWhile boundary lemmas -/

theorem takeWhile_all {p : Char → Bool} : ∀ {l : Str}, (∀ x ∈ l, p x = true) →
    l.takeWhile p = l
  | [], _ => rfl
  | x :: t, h => by
    simp only [List.takeWhile_cons, h x (List.mem_cons_self x t), if_true]
    exact congrArg (x :: ·) (takeWhile_all fun y hy => h y (List.mem_cons_of_mem x hy))

theorem dropWhile_all {p : Char → Bool} : ∀ {l : Str}, (∀ x ∈ l, p x = true) →
    l.dropWhile p = []
  | [], _ => rfl
  | x :: t, h => by
    simp only [List.dropWhile_cons, h x (List.mem_cons_self x t), if_true]
    exact dropWhile_all fun y hy => h y (List.mem_cons_of_mem x hy)

theorem takeWhile_append_not {p : Char → Bool} {y : Char} (hy : p y = false) :
    ∀ {xs : Str}, (∀ x ∈ xs, p x = true) → ∀ (ys : Str),
    (xs ++ y :: ys).takeWhile p = xs
  | [], _, ys => by simp [List.takeWhile_cons, hy]
  | x :: t, h, ys => by
    simp only [List.cons_append, List.takeWhile_cons,
      h x (List.mem_cons_self x t), if_true]
    exact congrArg (x :: ·)
      (takeWhile_append_not hy (fun z hz => h z (List.mem_cons_of_mem x hz)) ys)

theorem dropWhile_append_not {p : Char → Bool} {y : Char} (hy : p y = false) :
    ∀ {xs : Str}, (∀ x ∈ xs, p x = true) → ∀ (ys : Str),
    (xs ++ y :: ys).dropWhile p = y :: ys
  | [], _, ys => by simp [List.dropWhile_cons, hy]
  | x :: t, h, ys => by
    simp only [List.cons_append, List.dropWhile_cons,
      h x (List.mem_cons_self x t), if_true]
    exact dropWhile_append_not hy (fun z hz => h z (List.mem_cons_of_mem x hz)) ys

/-! ### Comment-stripper state machine lemmas -/

/-- The last character of `l`, falling back to `prev` when `l` is empty: the
`prev` component of the stripper state after consuming `l`. -/
def lastOr : Str → Option Char → Option Char
  | [], prev => prev
  | c :: t, _ => lastOr t (some c)

theorem lastOr_nil (prev : Option Char) : lastOr [] prev = prev := rfl

theorem lastOr_cons (c : Char) (t : Str) (prev : Option Char) :
    lastOr (c :: t) prev = lastOr t (some c) := rfl

theorem lastOr_eq_getLast? : ∀ (l : Str), l ≠ [] → ∀ (prev : Option Char),
    lastOr l prev = l.getLast? := by
  intro l
  induction l with
  | nil => intro h; exact absurd rfl h
  | cons c t ih =>
    intro _ prev
    cases t with
    | nil => simp [lastOr]
    | cons d t' =>
      rw [lastOr_cons, ih (by simp), List.getLast?_cons_cons]

theorem stripAux_nil (quote prev : Option Char) (acc : Str) :
    stripAux [] quote prev acc = acc.reverse := by
  cases quote <;> rfl

theorem stripAux_uq_step {c : Char} (h1 : ¬(c = '"' ∨ c = '\'')) (h2 : ¬ c = '#')
    (rest : Str) (prev : Option Char) (acc : Str) :
    stripAux (c :: rest) none prev acc = stripAux rest none (some c) (c :: acc) := by
  simp only [stripAux, if_neg h1, if_neg h2]

theorem stripAux_open {q : Char} (hq : q = '"' ∨ q = '\'') (rest : Str)
    (prev : Option Char) (acc : Str) :
    stripAux (q :: rest) none prev acc = stripAux rest (some q) (some q) (q :: acc) := by
  simp only [stripAux, if_pos hq]

theorem stripAux_hash (rest : Str) (prev : Option Char) (acc : Str) :
    stripAux ('#' :: rest) none prev acc = trimSpace acc.reverse := rfl

theorem stripAux_q_step {c q : Char} (h : ¬ c = q) (rest : Str)
    (prev : Option Char) (acc : Str) :
    stripAux (c :: rest) (some q) prev acc = stripAux rest (some q) (some c) (c :: acc) := by
  cases prev with
  | none => simp only [stripAux]
  | some p =>
    simp only [stripAux, if_neg (fun hc : c = q ∧ p ≠ '\\' => h hc.1)]

theorem stripAux_close {q p : Char} (hp : ¬ p = '\\') (rest : Str) (acc : Str) :
    stripAux (q :: rest) (some q) (some p) acc = stripAux rest none (some q) (q :: acc) := by
  simp only [stripAux]
  simp [hp]

theorem stripAux_stay_escaped (q : Char) (rest : Str) (acc : Str) :
    stripAux (q :: rest) (some q) (some '\\') acc =
      stripAux rest (some q) (some q) (q :: acc) := by
  simp only [stripAux]
  simp

theorem stripAux_no_hash : ∀ {rest : Str}, '#' ∉ rest →
    ∀ (quote prev : Option Char) (acc : Str),
    stripAux rest quote prev acc = acc.reverse ++ rest := by
  intro rest
  induction rest with
  | nil => intro _ quote prev acc; simp [stripAux_nil]
  | cons c t ih =>
    intro h quote prev acc
    have hc : ¬ c = '#' := fun hc => h (hc ▸ List.mem_cons_self c t)
    have ht : '#' ∉ t := fun hm => h (List.mem_cons_of_mem c hm)
    cases quote with
    | none =>
      by_cases hq : c = '"' ∨ c = '\''
      · rw [stripAux_open hq, ih ht]
        simp
      · rw [stripAux_uq_step hq hc, ih ht]
        simp
    | some q =>
      by_cases hcq : c = q
      · subst hcq
        cases prev with
        | none =>
          show stripAux (c :: t) (some c) none acc = acc.reverse ++ c :: t
          simp only [stripAux]
          rw [ih ht]
          simp
        | some p =>
          by_cases hp : p = '\\'
          · subst hp
            rw [stripAux_stay_escaped, ih ht]
            simp
          · rw [stripAux_close hp, ih ht]
            simp
      · rw [stripAux_q_step hcq, ih ht]
        simp

theorem removeInlineComment_no_hash {line : Str} (h : '#' ∉ line) :
    removeInlineComment line = line := by
  unfold removeInlineComment
  rw [stripAux_no_hash h]
  rfl

theorem stripAux_clean_pass : ∀ {pre : Str},
    (∀ c ∈ pre, ¬ c = '#' ∧ ¬ c = '"' ∧ ¬ c = '\'') →
    ∀ (rest : Str) (prev : Option Char) (acc : Str),
    stripAux (pre ++ rest) none prev acc =
      stripAux rest none (lastOr pre prev) (pre.reverse ++ acc) := by
  intro pre
  induction pre with
  | nil => intro _ rest prev acc; simp [lastOr_nil]
  | cons c t ih =>
    intro h rest prev acc
    have hc := h c (List.mem_cons_self c t)
    have h1 : ¬(c = '"' ∨ c = '\'') := fun hq => hq.elim hc.2.1 hc.2.2
    rw [List.cons_append, stripAux_uq_step h1 hc.1,
      ih (fun d hd => h d (List.mem_cons_of_mem c hd))]
    rw [lastOr_cons]
    simp

theorem stripAux_quoted_pass {q : Char} : ∀ {inner : Str},
    (∀ c ∈ inner, ¬ c = q) →
    ∀ (rest : Str) (prev : Option Char) (acc : Str),
    stripAux (inner ++ rest) (some q) prev acc =
      stripAux rest (some q) (lastOr inner prev) (inner.reverse ++ acc) := by
  intro inner
  induction inner with
  | nil => intro _ rest prev acc; simp [lastOr_nil]
  | cons c t ih =>
    intro h rest prev acc
    rw [List.cons_append, stripAux_q_step (h c (List.mem_cons_self c t)),
      ih (fun d hd => h d (List.mem_cons_of_mem c hd))]
    rw [lastOr_cons]
    simp

theorem lastOr_concat (a : Char) : ∀ (l : Str) (prev : Option Char),
    lastOr (l ++ [a]) prev = some a
  | [], _ => rfl
  | c :: t, _ => lastOr_concat a t (some c)

/-- In the unquoted state, the first `#` truncates the line and the prefix is
trimmed. -/
theorem strip_comment_unquoted {pre post : Str}
    (h : ∀ c ∈ pre, ¬ c = '#' ∧ ¬ c = '"' ∧ ¬ c = '\'') :
    removeInlineComment (pre ++ '#' :: post) = trimSpace pre := by
  unfold removeInlineComment
  rw [stripAux_clean_pass h, stripAux_hash]
  simp

/-- A `#` inside quotes is inert; the matching unescaped closing quote returns
to the unquoted state, after which a `#` truncates. -/
theorem strip_comment_after_close {q : Char} {pre inner post : Str}
    (hq : q = '"' ∨ q = '\'')
    (hpre : ∀ c ∈ pre, ¬ c = '#' ∧ ¬ c = '"' ∧ ¬ c = '\'')
    (hin : ∀ c ∈ inner, ¬ c = q)
    (hlast : inner.getLast? ≠ some '\\') :
    removeInlineComment (pre ++ q :: (inner ++ q :: '#' :: post)) =
      trimSpace (pre ++ q :: (inner ++ [q])) := by
  have hqq : ¬ q = '\\' := by rcases hq with rfl | rfl <;> decide
  unfold removeInlineComment
  rw [stripAux_clean_pass hpre, stripAux_open hq, stripAux_quoted_pass hin]
  obtain ⟨p, hp, hpne⟩ : ∃ p, lastOr inner (some q) = some p ∧ ¬ p = '\\' := by
    rcases List.eq_nil_or_concat inner with rfl | ⟨L, b, hLb⟩
    · exact ⟨q, rfl, hqq⟩
    · rw [List.concat_eq_append] at hLb
      subst hLb
      refine ⟨b, lastOr_concat b L (some q), fun he => hlast ?_⟩
      rw [List.getLast?_concat, he]
  rw [hp, stripAux_close hpne, stripAux_hash]
  simp

/-- A quote immediately preceded by a backslash does not close the quoted
region, so a later `#` never starts a comment when the quote is never
closed afterwards. -/
theorem strip_escaped_quote_stays {q : Char} {pre inner post : Str}
    (hq : q = '"' ∨ q = '\'')
    (hpre : ∀ c ∈ pre, ¬ c = '#' ∧ ¬ c = '"' ∧ ¬ c = '\'')
    (hin : ∀ c ∈ inner, ¬ c = q)
    (hpost : ∀ c ∈ post, ¬ c = q) :
    removeInlineComment (pre ++ q :: (inner ++ '\\' :: q :: '#' :: post)) =
      pre ++ q :: (inner ++ '\\' :: q :: '#' :: post) := by
  have hqb : ¬ ('\\' : Char) = q := by rcases hq with rfl | rfl <;> decide
  have hqh : ¬ ('#' : Char) = q := by rcases hq with rfl | rfl <;> decide
  unfold removeInlineComment
  rw [stripAux_clean_pass hpre, stripAux_open hq]
  have hin2 : ∀ c ∈ inner ++ ['\\'], ¬ c = q := by
    intro c hc
    rcases List.mem_append.1 hc with h | h
    · exact hin c h
    · rcases List.mem_singleton.1 h with rfl
      exact hqb
  have e1 : inner ++ '\\' :: q :: '#' :: post = (inner ++ ['\\']) ++ q :: '#' :: post := by
    simp
  rw [e1, stripAux_quoted_pass hin2, lastOr_concat, stripAux_stay_escaped]
  have hp2 : ∀ c ∈ '#' :: post, ¬ c = q := by
    intro c hc
    rcases List.mem_cons.1 hc with rfl | h
    · exact hqh
    · exact hpost c h
  conv_lhs => rw [← List.append_nil post]
  rw [show ('#' : Char) :: (post ++ []) = ('#' :: post) ++ ([] : Str) from by simp,
    stripAux_quoted_pass hp2, stripAux_nil]
  simp

/-- An unterminated quote suppresses comment stripping: the line is returned
unchanged. -/
theorem strip_unterminated {q : Char} {pre rest : Str}
    (hq : q = '"' ∨ q = '\'')
    (hpre : ∀ c ∈ pre, ¬ c = '#' ∧ ¬ c = '"' ∧ ¬ c = '\'')
    (hrest : ∀ c ∈ rest, ¬ c = q) :
    removeInlineComment (pre ++ q :: rest) = pre ++ q :: rest := by
  unfold removeInlineComment
  rw [stripAux_clean_pass hpre, stripAux_open hq]
  conv_lhs => rw [← List.append_nil rest]
  rw [stripAux_quoted_pass hrest, stripAux_nil]
  simp

/-! ### Scanner line-splitting lemmas -/

theorem splitRaw_no_newline : ∀ {l : Str}, '\n' ∉ l → splitRaw l = [l] := by
  intro l
  induction l with
  | nil => intro _; rfl
  | cons c t ih =>
    intro h
    have hc : ¬ c = '\n' := fun hc => h (hc ▸ List.mem_cons_self c t)
    have ht : '\n' ∉ t := fun hm => h (List.mem_cons_of_mem c hm)
    simp [splitRaw, hc, ih ht]

theorem splitRaw_append_newline : ∀ {l : Str}, '\n' ∉ l → ∀ (rest : Str),
    splitRaw (l ++ '\n' :: rest) = l :: splitRaw rest := by
  intro l
  induction l with
  | nil => intro _ rest; simp [splitRaw]
  | cons c t ih =>
    intro h rest
    have hc : ¬ c = '\n' := fun hc => h (hc ▸ List.mem_cons_self c t)
    have ht : '\n' ∉ t := fun hm => h (List.mem_cons_of_mem c hm)
    simp [splitRaw, hc, ih ht]

theorem splitRaw_joinSep : ∀ {lines : List Str}, lines ≠ [] →
    (∀ l ∈ lines, '\n' ∉ l) → splitRaw (joinSep ['\n'] lines) = lines := by
  intro lines
  induction lines with
  | nil => intro h _; exact absurd rfl h
  | cons l ls ih =>
    intro _ h
    cases ls with
    | nil => exact splitRaw_no_newline (h l (List.mem_cons_self l []))
    | cons l2 ls2 =>
      show splitRaw (l ++ ['\n'] ++ joinSep ['\n'] (l2 :: ls2)) = l :: l2 :: ls2
      rw [List.append_assoc, List.singleton_append,
        splitRaw_append_newline (h l (List.mem_cons_self l (l2 :: ls2))),
        ih (by simp) (fun x hx => h x (List.mem_cons_of_mem l hx))]

theorem splitLines_joinSep {lines : List Str} (hne : lines ≠ [])
    (h : ∀ l ∈ lines, l ≠ [] ∧ '\n' ∉ l ∧ l.getLast? ≠ some '\r') :
    splitLines (joinSep ['\n'] lines) = lines := by
  have hs : joinSep ['\n'] lines ≠ [] := by
    cases lines with
    | nil => exact absurd rfl hne
    | cons l ls =>
      cases ls with
      | nil => exact (h l (List.mem_cons_self l [])).1
      | cons l2 ls2 =>
        show l ++ ['\n'] ++ joinSep ['\n'] (l2 :: ls2) ≠ []
        simp
  unfold splitLines
  rw [if_neg hs, splitRaw_joinSep hne (fun l hl => (h l hl).2.1)]
  have hlast : ¬ lines.getLast? = some [] := by
    intro hg
    obtain ⟨hne', heq⟩ := List.mem_getLast?_eq_getLast (Option.mem_def.mpr hg)
    have hmem : ([] : Str) ∈ lines := by
      rw [heq]
      exact List.getLast_mem hne'
    exact (h [] hmem).1 rfl
  show List.map dropCR (if lines.getLast? = some [] then lines.dropLast else lines) = lines
  rw [if_neg hlast]
  have hdrop : ∀ l ∈ lines, dropCR l = id l :=
    fun l hl => if_neg (h l hl).2.2
  rw [List.map_congr_left hdrop, List.map_id]

/-! ### Expansion lemmas -/

theorem expandGo_no_dollar : ∀ (n : Nat) {s : Str}, s.length ≤ n → '$' ∉ s →
    ∀ (os : Str → Option Str) (env : EnvMap), expandGo os env n s = s := by
  intro n
  induction n with
  | zero =>
    intro s hl _ os env
    cases s with
    | nil => rfl
    | cons c t => simp at hl
  | succ n ih =>
    intro s hl h os env
    cases s with
    | nil => rfl
    | cons c t =>
      have hc : ¬ c = '$' := fun hc => h (hc ▸ List.mem_cons_self c t)
      have ht : '$' ∉ t := fun hm => h (List.mem_cons_of_mem c hm)
      have hl2 : t.length ≤ n := by simp [List.length_cons] at hl; omega
      simp only [expandGo, if_neg hc]
      exact congrArg (c :: ·) (ih hl2 ht os env)

theorem expandVariables_no_dollar (os : Str → Option Str) (env : EnvMap)
    {s : Str} (h : '$' ∉ s) : expandVariables os env s = s :=
  expandGo_no_dollar s.length le_rfl h os env

theorem identStr_elim {c : Char} {t : Str} (h : identStr (c :: t) = true) :
    isIdentStart c = true ∧ ∀ x ∈ t, isIdentChar x = true := by
  simpa [identStr, List.all_eq_true] using h

theorem expandVariables_braced (os : Str → Option Str) (env : EnvMap)
    {name : Str} (hne : name ≠ []) (hnb : '}' ∉ name) :
    expandVariables os env ('$' :: '{' :: (name ++ ['}'])) = resolveVar os env name := by
  unfold expandVariables
  have hl : ('$' :: '{' :: (name ++ ['}'])).length = name.length + 3 := by simp
  rw [hl]
  have hall : ∀ x ∈ name, (fun e => decide (e ≠ '}')) x = true := by
    intro x hx
    simp only [decide_eq_true_eq]
    exact fun he => hnb (he ▸ hx)
  have htw : (name ++ '}' :: []).takeWhile (fun e => e ≠ '}') = name :=
    takeWhile_append_not (by simp) hall []
  have hdw : (name ++ '}' :: []).dropWhile (fun e => e ≠ '}') = '}' :: [] :=
    dropWhile_append_not (by simp) hall []
  simp only [expandGo, if_pos rfl, if_pos (rfl : '{' = '{'), htw, hdw,
    if_neg hne, List.head?_cons, List.tail_cons]
  simp

theorem expandVariables_bare (os : Str → Option Str) (env : EnvMap)
    {name : Str} (hid : identStr name = true) :
    expandVariables os env ('$' :: name) = resolveVar os env name := by
  cases name with
  | nil => simp [identStr] at hid
  | cons d t =>
    obtain ⟨hd, htail⟩ := identStr_elim hid
    have hdbrace : ¬ d = '{' :=
      identChar_ne (identChar_of_identStart hd) (by decide)
    unfold expandVariables
    have hl : ('$' :: d :: t).length = t.length + 2 := by simp
    rw [hl]
    have htw : t.takeWhile isIdentChar = t := takeWhile_all htail
    have hdw : t.dropWhile isIdentChar = [] := dropWhile_all htail
    simp only [expandGo, if_pos rfl, if_neg hdbrace, if_pos hd, htw, hdw]
    simp

/-! ### Line-classifier lemmas -/

theorem matchKeyVal_entry {k : Str} (hk : identStr k = true) {sep : Char}
    (hsep : sep = '=' ∨ sep = ':') {rv : Str}
    (hnl : '\n' ∉ rv.dropWhile isSpaceRE) :
    matchKeyVal (k ++ sep :: rv) = some (k, rv.dropWhile isSpaceRE) := by
  cases k with
  | nil => simp [identStr] at hk
  | cons c t =>
    obtain ⟨hc, htail⟩ := identStr_elim hk
    have hsep_nid : isIdentChar sep = false := by rcases hsep with rfl | rfl <;> decide
    have hsep_nsp : isSpaceRE sep = false := by rcases hsep with rfl | rfl <;> decide
    have hcon : (rv.dropWhile isSpaceRE).contains '\n' = false := by
      cases hc2 : (rv.dropWhile isSpaceRE).contains '\n' with
      | false => rfl
      | true => exact absurd (List.mem_of_elem_eq_true hc2) hnl
    show matchKeyVal (c :: (t ++ sep :: rv)) = _
    simp only [matchKeyVal, if_pos hc,
      takeWhile_append_not hsep_nid htail, dropWhile_append_not hsep_nid htail,
      List.dropWhile_cons, hsep_nsp, Bool.false_eq_true, if_false, if_pos hsep, hcon]

theorem matchLine_entry {k : Str} (hk : identStr k = true) {sep : Char}
    (hsep : sep = '=' ∨ sep = ':') {rv : Str}
    (hnl : '\n' ∉ rv.dropWhile isSpaceRE) :
    matchLine (k ++ sep :: rv) = some (k, rv.dropWhile isSpaceRE) := by
  unfold matchLine
  cases k with
  | nil => simp [identStr] at hk
  | cons c t =>
    obtain ⟨hc, _⟩ := identStr_elim hk
    have hcsp : isSpaceRE c = false :=
      identChar_notSpaceRE (identChar_of_identStart hc)
    rw [List.cons_append, List.dropWhile_cons]
    simp only [hcsp, Bool.false_eq_true, if_false]
    exact matchKeyVal_entry hk hsep hnl

theorem matchExport_none {k : Str} (hk : identStr k = true) {sep : Char}
    (hsep : sep = '=' ∨ sep = ':') (rv : Str) :
    matchExport (k ++ sep :: rv) = none := by
  have hall := identStr_all hk
  have hsepsp : isSpaceRE sep = false := by rcases hsep with rfl | rfl <;> decide
  obtain ⟨c, t, rfl, hc⟩ : ∃ c t, k = c :: t ∧ isIdentStart c = true := by
    cases k with
    | nil => simp [identStr] at hk
    | cons c t => exact ⟨c, t, rfl, (identStr_elim hk).1⟩
  have hcsp : isSpaceRE c = false :=
    identChar_notSpaceRE (identChar_of_identStart hc)
  unfold matchExport
  have hdw : ((c :: t) ++ sep :: rv).dropWhile isSpaceRE = (c :: t) ++ sep :: rv := by
    rw [List.cons_append, List.dropWhile_cons]
    simp [hcsp]
  rw [hdw]
  by_cases h6 : ((c :: t) ++ sep :: rv).take 6 = ['e', 'x', 'p', 'o', 'r', 't']
  · rw [if_pos h6]
    by_cases hlen : 6 ≤ (c :: t).length
    · rw [List.drop_append_of_le_length hlen]
      cases hd6 : (c :: t).drop 6 with
      | nil => simp [hsepsp]
      | cons y ys =>
        have hy : y ∈ c :: t := by
          refine List.drop_subset 6 (c :: t) ?_
          rw [hd6]
          exact List.mem_cons_self y ys
        have hysp : isSpaceRE y = false := identChar_notSpaceRE (hall y hy)
        simp [hysp]
    · exfalso
      have hlt : (c :: t).length < 6 := by omega
      have hsome := congrArg (fun l => l[(c :: t).length]?) h6
      simp only [List.getElem?_take_of_lt hlt] at hsome
      rw [List.getElem?_append_right (Nat.le_refl _), Nat.sub_self] at hsome
      simp only [List.getElem?_cons_zero] at hsome
      have hc6 : (c :: t).length = 0 ∨ (c :: t).length = 1 ∨ (c :: t).length = 2 ∨
          (c :: t).length = 3 ∨ (c :: t).length = 4 ∨ (c :: t).length = 5 := by omega
      rcases hc6 with h0 | h0 | h0 | h0 | h0 | h0 <;> rw [h0] at hsome <;>
        rcases hsep with rfl | rfl <;> exact absurd hsome (by decide)
  · rw [if_neg h6]

/-! ### Value-decoder lemmas -/

theorem notSpaceRE_of_notGoSpace {c : Char} (h : isGoSpace c = false) :
    isSpaceRE c = false := by
  cases hc : isSpaceRE c with
  | false => rfl
  | true => rw [goSpace_of_spaceRE hc] at h; exact h

theorem dropWhile_eq_self_of_head {p : Char → Bool} {s : Str}
    (h : ∀ c, s.head? = some c → p c = false) : s.dropWhile p = s := by
  cases s with
  | nil => rfl
  | cons c t => simp [List.dropWhile_cons, h c rfl]

theorem trimSpace_eq_self_of_ends {s : Str}
    (hh : ∀ c, s.head? = some c → isGoSpace c = false)
    (hl : ∀ c, s.getLast? = some c → isGoSpace c = false) : trimSpace s = s := by
  unfold trimSpace dropTrailing
  rw [dropWhile_eq_self_of_head hh,
    dropWhile_eq_self_of_head (fun c hc => hl c (by rwa [List.head?_reverse] at hc)),
    List.reverse_reverse]

theorem getLast?_quote_wrap (q : Char) (inner : Str) :
    (q :: (inner ++ [q])).getLast? = some q := by
  rw [← List.cons_append, List.getLast?_concat]

theorem parseValue_squoted (inner : Str) :
    parseValue ('\'' :: (inner ++ ['\''])) = inner := by
  have hts : trimSpace ('\'' :: (inner ++ ['\''])) = '\'' :: (inner ++ ['\'']) := by
    apply trimSpace_eq_self_of_ends
    · intro c hc
      simp only [List.head?_cons, Option.some.injEq] at hc
      subst hc; decide
    · intro c hc
      rw [getLast?_quote_wrap] at hc
      cases hc; decide
  unfold parseValue
  rw [hts]
  rw [if_neg (by simp : ¬ ('\'' :: (inner ++ ['\'']) : Str) = [])]
  rw [if_pos ⟨by simp, Or.inr ⟨List.head?_cons, getLast?_quote_wrap '\'' inner⟩⟩]
  rw [if_neg (by simp : ¬ (('\'' :: (inner ++ ['\''])) : Str).head? = some '"')]
  simp [List.dropLast_concat]

theorem parseValue_dquoted (inner : Str) :
    parseValue ('"' :: (inner ++ ['"'])) = unescapeDoubleQuoted inner := by
  have hts : trimSpace ('"' :: (inner ++ ['"'])) = '"' :: (inner ++ ['"']) := by
    apply trimSpace_eq_self_of_ends
    · intro c hc
      simp only [List.head?_cons, Option.some.injEq] at hc
      subst hc; decide
    · intro c hc
      rw [getLast?_quote_wrap] at hc
      cases hc; decide
  unfold parseValue
  rw [hts]
  rw [if_neg (by simp : ¬ ('"' :: (inner ++ ['"']) : Str) = [])]
  rw [if_pos ⟨by simp, Or.inl ⟨List.head?_cons, getLast?_quote_wrap '"' inner⟩⟩]
  rw [if_pos (List.head?_cons : (('"' :: (inner ++ ['"'])) : Str).head? = some '"')]
  simp [List.dropLast_concat]

theorem safeChar_notGoSpace {c : Char} (h : safeChar c = true) : isGoSpace c = false :=
  (safeChar_elim h).1

theorem safeVal_all {v : Str} (h : safeVal v = true) : ∀ c ∈ v, safeChar c = true := by
  simpa [safeVal, List.all_eq_true] using h

theorem parseValue_safe {v : Str} (hv : safeVal v = true) (hne : v ≠ []) :
    parseValue v = v := by
  have hall := safeVal_all hv
  have hts : trimSpace v = v :=
    trimSpace_eq_self (fun c hc => safeChar_notGoSpace (hall c hc))
  obtain ⟨c, t, rfl⟩ : ∃ c t, v = c :: t := by
    cases v with
    | nil => exact absurd rfl hne
    | cons c t => exact ⟨c, t, rfl⟩
  have hcsafe := safeChar_elim (hall c (List.mem_cons_self c t))
  unfold parseValue
  rw [hts]
  rw [if_neg (by simp : ¬ ((c :: t) : Str) = [])]
  rw [if_neg ?hnq]
  case hnq =>
    rintro ⟨-, hor⟩
    rcases hor with ⟨hh, -⟩ | ⟨hh, -⟩ <;>
      (simp only [List.head?_cons, Option.some.injEq] at hh; subst hh)
    · exact hcsafe.2.1 rfl
    · exact hcsafe.2.2.1 rfl
  exact hts

/-! ### Escape-decoding equations -/

theorem unescape_esc (next : Char) (rest : Str) :
    unescapeDoubleQuoted ('\\' :: next :: rest) =
      escPair next ++ unescapeDoubleQuoted rest := by
  simp [unescapeDoubleQuoted]

theorem unescape_trailing : unescapeDoubleQuoted ['\\'] = ['\\'] := rfl

theorem unescape_plain {c : Char} (h : ¬ c = '\\') (rest : Str) :
    unescapeDoubleQuoted (c :: rest) = c :: unescapeDoubleQuoted rest := by
  rw [unescapeDoubleQuoted.eq_def]
  simp [h]

theorem escPair_unknown {next : Char} (h1 : ¬ next = 'n') (h2 : ¬ next = 'r')
    (h3 : ¬ next = 't') (h4 : ¬ next = '\\') (h5 : ¬ next = '"')
    (h6 : ¬ next = '\'') : escPair next = ['\\', next] := by
  unfold escPair
  rw [if_neg h1, if_neg h2, if_neg h3, if_neg h4, if_neg h5, if_neg h6]

/-! ### Mapping (association list) lemmas -/

theorem envLookup_mem : ∀ {m : EnvMap} {k v : Str}, envLookup m k = some v → (k, v) ∈ m := by
  intro m
  induction m with
  | nil => intro k v h; simp [envLookup] at h
  | cons p rest ih =>
    intro k v h
    obtain ⟨k', v'⟩ := p
    by_cases hk : k' = k
    · subst hk
      rw [envLookup, if_pos rfl] at h
      cases h
      exact List.mem_cons_self _ _
    · rw [envLookup, if_neg hk] at h
      exact List.mem_cons_of_mem _ (ih h)

theorem envLookup_eq_none_of_not_mem : ∀ {m : EnvMap} {k : Str},
    k ∉ m.map Prod.fst → envLookup m k = none := by
  intro m
  induction m with
  | nil => intro k _; rfl
  | cons p rest ih =>
    intro k h
    obtain ⟨k', v'⟩ := p
    have hk : ¬ k' = k := by
      intro hk
      exact h (by simp [hk])
    rw [envLookup, if_neg hk]
    exact ih (fun hm => h (by simp; right; simpa using hm))

theorem envLookup_isSome_of_mem_keys : ∀ {m : EnvMap} {k : Str},
    k ∈ m.map Prod.fst → ∃ v, envLookup m k = some v := by
  intro m
  induction m with
  | nil => intro k h; simp at h
  | cons p rest ih =>
    intro k h
    obtain ⟨k', v'⟩ := p
    by_cases hk : k' = k
    · exact ⟨v', by rw [envLookup, if_pos hk]⟩
    · have : k ∈ rest.map Prod.fst := by
        simp only [List.map_cons, List.mem_cons] at h
        rcases h with h | h
        · exact absurd h.symm hk
        · exact h
      obtain ⟨v, hv⟩ := ih this
      exact ⟨v, by rw [envLookup, if_neg hk]; exact hv⟩

theorem envInsert_append : ∀ {m : EnvMap} {k v : Str},
    k ∉ m.map Prod.fst → envInsert m k v = m ++ [(k, v)] := by
  intro m
  induction m with
  | nil => intro k v _; rfl
  | cons p rest ih =>
    intro k v h
    obtain ⟨k', v'⟩ := p
    have hk : ¬ k' = k := by
      intro hk
      exact h (by simp [hk])
    rw [envInsert, if_neg hk, List.cons_append,
      ih (fun hm => h (by simp; right; simpa using hm))]

theorem foldl_envInsert_disjoint : ∀ {ps : EnvMap},
    (ps.map Prod.fst).Nodup →
    ∀ {acc : EnvMap}, (∀ p ∈ ps, p.1 ∉ acc.map Prod.fst) →
    List.foldl (fun m p => envInsert m p.1 p.2) acc ps = acc ++ ps := by
  intro ps
  induction ps with
  | nil => intro _ acc _; simp
  | cons p rest ih =>
    intro hnd acc hdis
    obtain ⟨k, v⟩ := p
    simp only [List.map_cons, List.nodup_cons] at hnd
    rw [List.foldl_cons]
    rw [envInsert_append (hdis (k, v) (List.mem_cons_self _ _))]
    rw [ih hnd.2 ?hdis2]
    · simp
    case hdis2 =>
      intro q hq
      rw [List.map_append, List.mem_append]
      rintro (hmem | hmem)
      · exact hdis q (List.mem_cons_of_mem _ hq) hmem
      · simp only [List.map_cons, List.map_nil, List.mem_singleton] at hmem
        exact hnd.1 (hmem ▸ List.mem_map_of_mem Prod.fst hq)

theorem envLookup_map_pairs : ∀ (ks : List Str) (f : Str → Str) (key : Str),
    envLookup (ks.map (fun k => (k, f k))) key =
      if key ∈ ks then some (f key) else none := by
  intro ks f key
  induction ks with
  | nil => simp [envLookup]
  | cons k ks ih =>
    by_cases hk : k = key
    · subst hk
      simp [envLookup, List.mem_cons]
    · rw [List.map_cons, envLookup, if_neg hk, ih]
      by_cases hm : key ∈ ks
      · rw [if_pos hm, if_pos (List.mem_cons_of_mem k hm)]
      · rw [if_neg hm, if_neg (by simp [hm, Ne.symm hk, List.mem_cons])]

/-! ### Parse-driver step lemmas -/

theorem parseLinesGo_nil (os : Str → Option Str) (e : Bool) (n : Nat) (r : EnvMap) :
    parseLinesGo os e [] n r = .ok r := rfl

theorem parseLinesGo_skip_blank {l : Str}
    (h : trimSpace l = [] ∨ (trimSpace l).head? = some '#')
    (os : Str → Option Str) (e : Bool) (ls : List Str) (n : Nat) (r : EnvMap) :
    parseLinesGo os e (l :: ls) n r = parseLinesGo os e ls (n + 1) r := by
  simp only [parseLinesGo, if_pos h]

theorem parseLinesGo_err {l : Str}
    (h1 : ¬ (trimSpace l = [] ∨ (trimSpace l).head? = some '#'))
    (h2 : parseLine (trimSpace l) = .err)
    (os : Str → Option Str) (e : Bool) (ls : List Str) (n : Nat) (r : EnvMap) :
    parseLinesGo os e (l :: ls) n r = .error n := by
  simp only [parseLinesGo, if_neg h1, h2]

theorem parseLinesGo_skip_key {l : Str}
    (h1 : ¬ (trimSpace l = [] ∨ (trimSpace l).head? = some '#'))
    (h2 : parseLine (trimSpace l) = .skip)
    (os : Str → Option Str) (e : Bool) (ls : List Str) (n : Nat) (r : EnvMap) :
    parseLinesGo os e (l :: ls) n r = parseLinesGo os e ls (n + 1) r := by
  simp only [parseLinesGo, if_neg h1, h2]

theorem parseLinesGo_entry {l k v : Str}
    (h1 : ¬ (trimSpace l = [] ∨ (trimSpace l).head? = some '#'))
    (h2 : parseLine (trimSpace l) = .entry k v)
    (os : Str → Option Str) (e : Bool) (ls : List Str) (n : Nat) (r : EnvMap) :
    parseLinesGo os e (l :: ls) n r =
      parseLinesGo os e ls (n + 1)
        (envInsert r k (if e then expandVariables os r v else v)) := by
  simp only [parseLinesGo, if_neg h1, h2]

/-! ### The encoder line on a safe mapping -/

theorem safe_nospecial {c : Char} (h : safeChar c = true) :
    (c == ' ' || c == '\t' || c == '\n' || c == '\r' || c == '"' ||
     c == '\'' || c == '\\' || c == '#' || c == '$') = false := by
  cases hb : (c == ' ' || c == '\t' || c == '\n' || c == '\r' || c == '"' ||
      c == '\'' || c == '\\' || c == '#' || c == '$') with
  | false => rfl
  | true =>
    simp only [Bool.or_eq_true, beq_iff_eq] at hb
    rcases hb with ((((((((hb | hb) | hb) | hb) | hb) | hb) | hb) | hb) | hb) <;>
      subst hb <;> exact absurd h (by decide)

theorem needsQuoting_safe {v : Str} (hv : safeVal v = true) (hne : v ≠ []) :
    needsQuoting v = false := by
  have hall := safeVal_all hv
  unfold needsQuoting
  rw [if_neg hne]
  rw [List.any_eq_false]
  intro c hc
  simp only [Bool.not_eq_true]
  exact safe_nospecial (hall c hc)

theorem formatEnvLine_safe {k v : Str} (hv : safeVal v = true) (hne : v ≠ []) :
    formatEnvLine k v = k ++ '=' :: v := by
  unfold formatEnvLine
  rw [if_pos (by simp [needsQuoting_safe hv hne])]

theorem formatEnvLine_empty (k : Str) :
    formatEnvLine k [] = k ++ '=' :: '"' :: '"' :: [] := by
  unfold formatEnvLine
  rw [if_neg (by simp [needsQuoting])]
  rfl

theorem safeVal_no_dollar {v : Str} (hv : safeVal v = true) : '$' ∉ v := by
  intro hm
  exact (safeChar_elim (safeVal_all hv '$' hm)).2.2.2.2.2 rfl

/-- Driving the parser over one well-formed `KEY=rawvalue` line. -/
theorem parseLinesGo_one_line {os : Str → Option Str} {k rv v : Str}
    (hk : identStr k = true)
    (hrv_nospace : ∀ c ∈ rv, isGoSpace c = false)
    (hrv_nohash : '#' ∉ rv) (hrv_nonl : '\n' ∉ rv)
    (hpv : parseValue (trimSpace rv) = v)
    (hexp : ∀ acc, expandVariables os acc v = v)
    (ls : List Str) (n : Nat) (acc : EnvMap) :
    parseLinesGo os true ((k ++ '=' :: rv) :: ls) n acc =
      parseLinesGo os true ls (n + 1) (envInsert acc k v) := by
  have hall := identStr_all hk
  obtain ⟨c0, t0, rfl⟩ : ∃ c0 t0, k = c0 :: t0 := by
    cases k with
    | nil => simp [identStr] at hk
    | cons c t => exact ⟨c, t, rfl⟩
  have hline_nospace : ∀ c ∈ (c0 :: t0) ++ '=' :: rv, isGoSpace c = false := by
    intro c hc
    rcases List.mem_append.1 hc with hc | hc
    · exact identChar_notGoSpace (hall c hc)
    · rcases List.mem_cons.1 hc with rfl | hc
      · decide
      · exact hrv_nospace c hc
  have hline_nohash : '#' ∉ (c0 :: t0) ++ '=' :: rv := by
    intro hm
    rcases List.mem_append.1 hm with hm | hm
    · exact identChar_ne (hall '#' hm) (by decide) rfl
    · rcases List.mem_cons.1 hm with hm | hm
      · exact absurd hm.symm (by decide)
      · exact hrv_nohash hm
  have hts : trimSpace ((c0 :: t0) ++ '=' :: rv) = (c0 :: t0) ++ '=' :: rv :=
    trimSpace_eq_self hline_nospace
  have hskip : ¬ (trimSpace ((c0 :: t0) ++ '=' :: rv) = [] ∨
      (trimSpace ((c0 :: t0) ++ '=' :: rv)).head? = some '#') := by
    rw [hts]
    rintro (habs | habs)
    · simp at habs
    · rw [List.cons_append, List.head?_cons] at habs
      cases habs
      exact identChar_ne (hall '#' (List.mem_cons_self _ _)) (by decide) rfl
  have hdwrv : rv.dropWhile isSpaceRE = rv :=
    dropWhile_eq_self_of_all
      (fun c hc => notSpaceRE_of_notGoSpace (hrv_nospace c hc))
  have hpl : parseLine (trimSpace ((c0 :: t0) ++ '=' :: rv)) = .entry (c0 :: t0) v := by
    rw [hts]
    unfold parseLine
    rw [removeInlineComment_no_hash hline_nohash,
      matchExport_none hk (Or.inl rfl) rv,
      matchLine_entry hk (Or.inl rfl) (by rw [hdwrv]; exact hrv_nonl), hdwrv]
    dsimp only
    rw [hpv]
  rw [parseLinesGo_entry hskip hpl]
  rw [if_pos rfl, hexp acc]

/-- Driving the parser over the formatted lines of a list of safe pairs. -/
theorem parseLinesGo_safe : ∀ (ps : EnvMap),
    (∀ p ∈ ps, identStr p.1 = true ∧ safeVal p.2 = true) →
    ∀ (os : Str → Option Str) (n : Nat) (acc : EnvMap),
    parseLinesGo os true (ps.map (fun p => formatEnvLine p.1 p.2)) n acc =
      .ok (ps.foldl (fun m p => envInsert m p.1 p.2) acc) := by
  intro ps
  induction ps with
  | nil => intro _ os n acc; rfl
  | cons p rest ih =>
    intro hps os n acc
    obtain ⟨k, v⟩ := p
    obtain ⟨hk, hv⟩ := hps (k, v) (List.mem_cons_self _ _)
    dsimp only at hk hv
    have hrest : ∀ p ∈ rest, identStr p.1 = true ∧ safeVal p.2 = true :=
      fun q hq => hps q (List.mem_cons_of_mem _ hq)
    rw [List.map_cons, List.foldl_cons]
    dsimp only
    by_cases hv0 : v = []
    · subst hv0
      rw [formatEnvLine_empty k]
      have h1 : ∀ c ∈ ('"' :: '"' :: ([] : Str)), isGoSpace c = false := by decide
      have h2 : '#' ∉ ('"' :: '"' :: ([] : Str)) := by decide
      have h3 : '\n' ∉ ('"' :: '"' :: ([] : Str)) := by decide
      have h4 : parseValue (trimSpace ('"' :: '"' :: ([] : Str))) = [] := by decide
      rw [parseLinesGo_one_line hk h1 h2 h3 h4 (fun _ => rfl) _ n acc]
      exact ih hrest os (n + 1) _
    · rw [formatEnvLine_safe hv hv0]
      have hnospace : ∀ c ∈ v, isGoSpace c = false :=
        fun c hc => safeChar_notGoSpace (safeVal_all hv c hc)
      have h2 : '#' ∉ v :=
        fun hm => (safeChar_elim (safeVal_all hv '#' hm)).2.2.2.2.1 rfl
      have h3 : '\n' ∉ v := by
        intro hm
        have := safeChar_notGoSpace (safeVal_all hv '\n' hm)
        exact absurd this (by decide)
      have h4 : parseValue (trimSpace v) = v := by
        rw [trimSpace_eq_self hnospace]
        exact parseValue_safe hv hv0
      have h5 : ∀ acc', expandVariables os acc' v = v :=
        fun acc' => expandVariables_no_dollar os acc' (safeVal_no_dollar hv)
      rw [parseLinesGo_one_line hk hnospace h2 h3 h4 h5 _ n acc]
      exact ih hrest os (n + 1) _

/-! ### Lexicographic order on strings -/

theorem strLeB_total : ∀ (a b : Str), strLeB a b = true ∨ strLeB b a = true := by
  intro a
  induction a with
  | nil => intro b; left; rfl
  | cons x xs ih =>
    intro b
    cases b with
    | nil => right; rfl
    | cons y ys =>
      by_cases h1 : x.toNat < y.toNat
      · left; simp [strLeB, h1]
      · by_cases h2 : y.toNat < x.toNat
        · right; simp [strLeB, h2]
        · rcases ih ys with h | h
          · left; simp [strLeB, h1, h2, h]
          · right; simp [strLeB, h1, h2, h]

theorem strLeB_trans : ∀ (a b c : Str), strLeB a b = true → strLeB b c = true →
    strLeB a c = true := by
  intro a
  induction a with
  | nil => intro b c _ _; rfl
  | cons x xs ih =>
    intro b c hab hbc
    cases b with
    | nil => simp [strLeB] at hab
    | cons y ys =>
      cases c with
      | nil => simp [strLeB] at hbc
      | cons z zs =>
        simp only [strLeB] at hab hbc ⊢
        by_cases h1 : x.toNat < y.toNat
        · by_cases h2 : y.toNat < z.toNat
          · simp [Nat.lt_trans h1 h2]
          · by_cases h3 : z.toNat < y.toNat
            · simp [h2, h3] at hbc
            · have hyz : y.toNat = z.toNat :=
                Nat.le_antisymm (Nat.le_of_not_lt h3) (Nat.le_of_not_lt h2)
              simp [hyz ▸ h1]
        · by_cases h4 : y.toNat < x.toNat
          · simp [h1, h4] at hab
          · have hxy : x.toNat = y.toNat :=
              Nat.le_antisymm (Nat.le_of_not_lt h4) (Nat.le_of_not_lt h1)
            by_cases h2 : y.toNat < z.toNat
            · simp [hxy ▸ h2]
            · by_cases h3 : z.toNat < y.toNat
              · simp [h2, h3] at hbc
              · have hg1 : ¬ x.toNat < z.toNat := by omega
                have hg2 : ¬ z.toNat < x.toNat := by omega
                simp only [if_neg h1, if_neg h4] at hab
                simp only [if_neg h2, if_neg h3] at hbc
                simp only [if_neg hg1, if_neg hg2]
                exact ih ys zs hab hbc

instance : IsTotal Str strLe := ⟨strLeB_total⟩

instance : IsTrans Str strLe := ⟨strLeB_trans⟩

theorem sortStrs_perm (l : List Str) : (sortStrs l).Perm l :=
  List.perm_insertionSort strLe l

theorem sortStrs_sorted (l : List Str) : List.Pairwise strLe (sortStrs l) :=
  List.sorted_insertionSort strLe l

/-! ### Encoder refinement: source escaping equals spec escaping -/

theorem repChar_append (o : Char) (n : Str) (a b : Str) :
    repChar o n (a ++ b) = repChar o n a ++ repChar o n b := by
  simp [repChar]

theorem escapeValue_append (a b : Str) :
    escapeValue (a ++ b) = escapeValue a ++ escapeValue b := by
  simp [escapeValue, repChar_append]

theorem escapeValue_single (c : Char) : escapeValue [c] = escChar c := by
  by_cases h1 : c = '\\'
  · subst h1; rfl
  · by_cases h2 : c = '"'
    · subst h2; rfl
    · by_cases h3 : c = '\n'
      · subst h3; rfl
      · by_cases h4 : c = '\r'
        · subst h4; rfl
        · by_cases h5 : c = '\t'
          · subst h5; rfl
          · simp [escapeValue, repChar, escChar, h1, h2, h3, h4, h5]

theorem escapeValue_eq_escapeSpec : ∀ (v : Str), escapeValue v = escapeSpec v := by
  intro v
  induction v with
  | nil => rfl
  | cons c t ih =>
    have : (c :: t : Str) = [c] ++ t := rfl
    rw [this, escapeValue_append, escapeValue_single, ih]
    simp [escapeSpec]

theorem special_pointwise (c : Char) :
    (c == ' ' || c == '\t' || c == '\n' || c == '\r' || c == '"' ||
     c == '\'' || c == '\\' || c == '#' || c == '$') = decide (c ∈ specialChars) := by
  rw [Bool.eq_iff_iff]
  simp only [Bool.or_eq_true, beq_iff_eq, decide_eq_true_eq, specialChars,
    List.mem_cons, List.not_mem_nil, or_false]
  tauto

theorem any_pointwise {p q : Char → Bool} (h : ∀ c, p c = q c) :
    ∀ (l : Str), l.any p = l.any q := by
  intro l
  induction l with
  | nil => rfl
  | cons c t ih => simp [List.any_cons, h c, ih]

theorem needsQuoting_eq_spec (v : Str) : needsQuoting v = needsQuotingSpec v := by
  by_cases hv : v = []
  · subst hv; rfl
  · unfold needsQuoting needsQuotingSpec
    rw [if_neg hv]
    rw [any_pointwise special_pointwise v]
    simp only [hv, false_or, decide_eq_true_eq]
    rw [Bool.eq_iff_iff]
    simp [List.any_eq_true]

theorem formatEnvLine_eq_specLine (k v : Str) : formatEnvLine k v = specLine k v := by
  unfold formatEnvLine specLine
  rw [needsQuoting_eq_spec, escapeValue_eq_escapeSpec]
  by_cases h : needsQuotingSpec v = true
  · rw [if_pos h, if_neg (by simp [h])]
  · rw [if_neg h, if_pos (by simp [Bool.not_eq_true] at h; simp [h])]

/-! ### Marshal structure lemmas -/

theorem Marshal_nil : Marshal [] = [] := rfl

theorem Marshal_eq_spec (env : EnvMap) :
    Marshal env = joinSep ['\n'] ((sortStrs (env.map Prod.fst)).map
      (fun key => specLine key ((envLookup env key).getD []))) := by
  unfold Marshal
  by_cases henv : env = []
  · subst henv; rfl
  · rw [if_neg henv]
    exact congrArg (joinSep ['\n'])
      (List.map_congr_left (fun k _ => formatEnvLine_eq_specLine k _))

theorem canonPairs_keys (env : EnvMap) :
    (canonPairs env).map Prod.fst = sortStrs (env.map Prod.fst) := by
  unfold canonPairs
  rw [List.map_map]
  exact List.map_id _

theorem Marshal_eq_canon (env : EnvMap) (hne : env ≠ []) :
    Marshal env = joinSep ['\n']
      ((canonPairs env).map (fun p => formatEnvLine p.1 p.2)) := by
  unfold Marshal canonPairs
  rw [if_neg hne, List.map_map]
  rfl

theorem canonPairs_safe {env : EnvMap}
    (hk : ∀ p ∈ env, identStr p.1 = true)
    (hv : ∀ p ∈ env, safeVal p.2 = true) :
    ∀ p ∈ canonPairs env, identStr p.1 = true ∧ safeVal p.2 = true := by
  intro p hp
  unfold canonPairs at hp
  obtain ⟨k, hkmem, rfl⟩ := List.mem_map.1 hp
  have hkeys : k ∈ env.map Prod.fst := (sortStrs_perm _).mem_iff.1 hkmem
  obtain ⟨v, hvlook⟩ := envLookup_isSome_of_mem_keys hkeys
  have hpair : (k, v) ∈ env := envLookup_mem hvlook
  rw [hvlook]
  exact ⟨hk (k, v) hpair, hv (k, v) hpair⟩

theorem envLookup_canonPairs (env : EnvMap) (key : Str) :
    envLookup (canonPairs env) key = envLookup env key := by
  unfold canonPairs
  rw [envLookup_map_pairs]
  by_cases hmem : key ∈ sortStrs (env.map Prod.fst)
  · rw [if_pos hmem]
    obtain ⟨v, hv⟩ :=
      envLookup_isSome_of_mem_keys ((sortStrs_perm _).mem_iff.1 hmem)
    rw [hv]
    rfl
  · rw [if_neg hmem]
    exact (envLookup_eq_none_of_not_mem
      (fun hk => hmem ((sortStrs_perm _).mem_iff.2 hk))).symm

/-! ### The spec-side line contains no newline -/

theorem escapeSpec_no_newline (v : Str) : '\n' ∉ escapeSpec v := by
  intro hm
  obtain ⟨c, _, hm2⟩ := List.mem_flatMap.1 hm
  unfold escChar at hm2
  split_ifs at hm2 with h1 h2 h3 h4 h5
  · exact absurd hm2 (by decide)
  · exact absurd hm2 (by decide)
  · exact absurd hm2 (by decide)
  · exact absurd hm2 (by decide)
  · exact absurd hm2 (by decide)
  · exact h3 (List.mem_singleton.1 hm2).symm

theorem identStr_no_newline {k : Str} (hk : identStr k = true) : '\n' ∉ k := by
  intro hm
  have := identChar_notGoSpace (identStr_all hk '\n' hm)
  exact absurd this (by decide)

theorem specLine_no_newline {k : Str} (hk : identStr k = true) (v : Str) :
    '\n' ∉ specLine k v := by
  unfold specLine
  by_cases h : needsQuotingSpec v = true
  · rw [if_pos h]
    intro hm
    rcases List.mem_append.1 hm with hm | hm
    · exact identStr_no_newline hk hm
    · rcases List.mem_cons.1 hm with hm | hm
      · exact absurd hm.symm (by decide)
      · rcases List.mem_cons.1 hm with hm | hm
        · exact absurd hm.symm (by decide)
        · rcases List.mem_append.1 hm with hm | hm
          · exact escapeSpec_no_newline v hm
          · exact absurd (List.mem_singleton.1 hm) (by decide)
  · rw [if_neg h]
    intro hm
    rcases List.mem_append.1 hm with hm | hm
    · exact identStr_no_newline hk hm
    · rcases List.mem_cons.1 hm with hm | hm
      · exact absurd hm.symm (by decide)
      · apply h
        unfold needsQuotingSpec
        simp only [decide_eq_true_eq]
        right
        refine List.any_eq_true.2 ⟨'\n', hm, ?_⟩
        simp [specialChars]

/-! ### Resolution order of a variable reference -/

theorem resolveVar_hit {os : Str → Option Str} {env : EnvMap} {name v : Str}
    (h : envLookup env name = some v) : resolveVar os env name = v := by
  unfold resolveVar
  rw [h]

theorem resolveVar_miss {os : Str → Option Str} {env : EnvMap} {name : Str}
    (h : envLookup env name = none) : resolveVar os env name = (os name).getD [] := by
  unfold resolveVar
  rw [h]
  cases os name <;> rfl

/-! ### Fail-fast driver: first malformed line aborts with its line number -/

theorem no_cr_last {l : Str} (h : ∀ c ∈ l, isGoSpace c = false) :
    l.getLast? ≠ some '\r' := by
  intro hg
  obtain ⟨hne', heq⟩ := List.mem_getLast?_eq_getLast (Option.mem_def.mpr hg)
  have hmem : '\r' ∈ l := by
    rw [heq]
    exact List.getLast_mem hne'
  exact absurd (h '\r' hmem) (by decide)

theorem formatEnvLine_nospace {k v : Str} (hk : identStr k = true)
    (hv : safeVal v = true) :
    ∀ c ∈ formatEnvLine k v, isGoSpace c = false := by
  have hall := identStr_all hk
  by_cases hv0 : v = []
  · subst hv0
    rw [formatEnvLine_empty]
    intro c hc
    rcases List.mem_append.1 hc with hc | hc
    · exact identChar_notGoSpace (hall c hc)
    · rcases List.mem_cons.1 hc with rfl | hc
      · decide
      · rcases List.mem_cons.1 hc with rfl | hc
        · decide
        · rcases List.mem_cons.1 hc with rfl | hc
          · decide
          · simp at hc
  · rw [formatEnvLine_safe hv hv0]
    intro c hc
    rcases List.mem_append.1 hc with hc | hc
    · exact identChar_notGoSpace (hall c hc)
    · rcases List.mem_cons.1 hc with rfl | hc
      · decide
      · exact safeChar_notGoSpace (safeVal_all hv c hc)

theorem formatEnvLine_ne_nil {k v : Str} (hk : identStr k = true) :
    formatEnvLine k v ≠ [] := by
  obtain ⟨c0, t0, rfl⟩ : ∃ c0 t0, k = c0 :: t0 := by
    cases k with
    | nil => simp [identStr] at hk
    | cons c t => exact ⟨c, t, rfl⟩
  unfold formatEnvLine
  by_cases h : ¬ needsQuoting v = true
  · rw [if_pos h]; simp
  · rw [if_neg h]; simp

theorem parseLinesGo_first_error :
    ∀ (ls : List Str) (i : Nat), i < ls.length →
    effMalformed (ls.getD i []) →
    (∀ j, j < i → ¬ effMalformed (ls.getD j [])) →
    ∀ (os : Str → Option Str) (e : Bool) (n : Nat) (acc : EnvMap),
    parseLinesGo os e ls n acc = .error (n + i) := by
  intro ls
  induction ls with
  | nil => intro i hi; simp at hi
  | cons l ls ih =>
    intro i hi hm hfirst os e n acc
    cases i with
    | zero =>
      have hm0 : effMalformed l := by simpa using hm
      rw [parseLinesGo_err hm0.1 hm0.2]
      simp
    | succ j =>
      have h0 : ¬ effMalformed l := by simpa using hfirst 0 (Nat.succ_pos j)
      have hm' : effMalformed (ls.getD j []) := by simpa using hm
      have hfirst' : ∀ j', j' < j → ¬ effMalformed (ls.getD j' []) := by
        intro j' hj'
        simpa using hfirst (j' + 1) (Nat.succ_lt_succ hj')
      have hi' : j < ls.length := by simpa using hi
      by_cases hb : trimSpace l = [] ∨ (trimSpace l).head? = some '#'
      · rw [parseLinesGo_skip_blank hb, ih j hi' hm' hfirst' os e (n + 1) acc]
        congr 1
        omega
      · cases hpl : parseLine (trimSpace l) with
        | err => exact absurd ⟨hb, hpl⟩ h0
        | skip =>
          rw [parseLinesGo_skip_key hb hpl, ih j hi' hm' hfirst' os e (n + 1) acc]
          congr 1
          omega
        | entry k v =>
          rw [parseLinesGo_entry hb hpl, ih j hi' hm' hfirst' os e (n + 1) _]
          congr 1
          omega

/-! ### Round trip over safe mappings -/

theorem roundTrip_safe (os : Str → Option Str) (m : EnvMap)
    (hk : ∀ p ∈ m, identStr p.1 = true)
    (hnd : (m.map Prod.fst).Nodup)
    (hv : ∀ p ∈ m, safeVal p.2 = true) :
    runParse os true (Marshal m) = .ok (canonPairs m) := by
  by_cases hm : m = []
  · subst hm
    rfl
  · have hcp := canonPairs_safe hk hv
    have hlines : ∀ l ∈ (canonPairs m).map (fun p => formatEnvLine p.1 p.2),
        l ≠ [] ∧ '\n' ∉ l ∧ l.getLast? ≠ some '\r' := by
      intro l hl
      obtain ⟨p, hp, rfl⟩ := List.mem_map.1 hl
      obtain ⟨hk', hv'⟩ := hcp p hp
      have hns := formatEnvLine_nospace hk' hv'
      refine ⟨formatEnvLine_ne_nil hk', ?_, no_cr_last hns⟩
      intro hmem
      exact absurd (hns '\n' hmem) (by decide)
    have hlne : (canonPairs m).map (fun p => formatEnvLine p.1 p.2) ≠ [] := by
      have hlen : ((canonPairs m).map fun p => formatEnvLine p.1 p.2).length = m.length := by
        rw [List.length_map]
        unfold canonPairs
        rw [List.length_map, (sortStrs_perm _).length_eq, List.length_map]
      intro habs
      rw [habs] at hlen
      exact hm (List.length_eq_zero.1 hlen.symm)
    unfold runParse
    rw [Marshal_eq_canon m hm, splitLines_joinSep hlne hlines,
      parseLinesGo_safe (canonPairs m) hcp os 1 []]
    rw [foldl_envInsert_disjoint ?nd ?dis]
    · rw [List.nil_append]
    case nd =>
      rw [canonPairs_keys]
      exact ((sortStrs_perm _).nodup_iff).2 hnd
    case dis =>
      intro p _ hpm
      simp at hpm

/-! ## The claims -/

/-- C1 (counterexample): the claim's character list is not sufficient.  For
the mapping K ↦ "\x0b" (a vertical tab, which is none of space, tab, newline,
carriage return, quote, backslash, `#`, `$`), `Marshal` emits `K=` followed by
the raw vertical tab, and re-parsing trims it as white space: the parse
succeeds but maps K to the empty string, not to the original value. -/
theorem C1_roundtrip_counterexample :
    runParse (fun _ => none) true (Marshal [(['K'], ['\x0b'])]) =
      .ok [(['K'], [])] ∧
    envLookup [(['K'], ['\x0b'])] ['K'] ≠ envLookup [(['K'], [])] ['K'] := by
  constructor
  · rfl
  · decide

/-- C1 (amended): the round trip holds once the values are additionally free
of all white-space characters (Go `unicode.IsSpace`: the claim's space, tab,
newline and carriage return plus `\v`, `\f` and the Unicode spaces): for every
mapping with identifier keys, pairwise-distinct keys, and values whose
characters are neither white space nor one of `"`, `'`, `\`, `#`, `$`,
parsing the encoded text succeeds with the key-sorted mapping `canonPairs m`,
which agrees with `m` on every key — for every external environment, with
expansion enabled. -/
theorem C1_roundtrip_amended (os : Str → Option Str) (m : EnvMap) (key : Str)
    (hk : ∀ p ∈ m, identStr p.1 = true)
    (hnd : (m.map Prod.fst).Nodup)
    (hv : ∀ p ∈ m, safeVal p.2 = true) :
    runParse os true (Marshal m) = .ok (canonPairs m) ∧
    envLookup (canonPairs m) key = envLookup m key :=
  ⟨roundTrip_safe os m hk hnd hv, envLookup_canonPairs m key⟩

theorem C1_roundtrip_amended_witness :
    runParse (fun _ => none) true (Marshal [(['B'], ['v']), (['A'], [])]) =
      .ok (canonPairs [(['B'], ['v']), (['A'], [])]) ∧
    envLookup (canonPairs [(['B'], ['v']), (['A'], [])]) ['A'] =
      envLookup [(['B'], ['v']), (['A'], [])] ['A'] :=
  C1_roundtrip_amended (fun _ => none) [(['B'], ['v']), (['A'], [])] ['A']
    (by decide) (by decide) (by decide)

/-- C2: the round trip diverges under expansion: for m = {A ↦ "x",
B ↦ "$A"}, the encoder quotes `$A` (because of the `$`), yet re-parsing the
quoted value still expands it against the entry A parsed earlier, so
Parse(Marshal m) succeeds with B ↦ "x" ≠ "$A". -/
theorem C2_expansion_divergence :
    runParse (fun _ => none) true (Marshal [(['A'], ['x']), (['B'], ['$', 'A'])]) =
      .ok [(['A'], ['x']), (['B'], ['x'])] ∧
    envLookup [(['A'], ['x']), (['B'], ['x'])] ['B'] ≠
      envLookup [(['A'], ['x']), (['B'], ['$', 'A'])] ['B'] := by
  constructor
  · rfl
  · decide

/-- C3: fail-fast all-or-nothing parsing: when the scanner line at 0-based
index i is the first line that is non-blank, not a comment, and classified as
malformed, `Parse` returns the error carrying the 1-based physical line
number i+1 (blank and comment lines are counted), and no mapping at all —
the `.error` result models Go's `nil` map. -/
theorem C3_fail_fast (os : Str → Option Str) (e : Bool) (s : Str) (i : Nat)
    (hi : i < (splitLines s).length)
    (hm : effMalformed ((splitLines s).getD i []))
    (hfirst : ∀ j, j < i → ¬ effMalformed ((splitLines s).getD j [])) :
    runParse os e s = .error (i + 1) := by
  unfold runParse
  rw [parseLinesGo_first_error (splitLines s) i hi hm hfirst os e 1 []]
  congr 1
  omega

theorem C3_fail_fast_witness :
    runParse (fun _ => none) true ("A=1\n\nBAD-LINE\nC=2".data) = .error 3 :=
  C3_fail_fast (fun _ => none) true ("A=1\n\nBAD-LINE\nC=2".data) 2
    (by decide) (by decide) (by decide)

/-- C4: expansion is applied regardless of quote mode: the value decoder
returns a single-quoted token's inner text verbatim (escape decoding
suppressed), and parsing `BASE=x` then `SINGLE='$BASE literal?'` yields
SINGLE ↦ "x literal?" — the single-quoted value is still expanded — for
every external environment. -/
theorem C4_single_quote_expansion :
    (∀ inner : Str, parseValue ('\'' :: (inner ++ ['\''])) = inner) ∧
    ∀ os : Str → Option Str,
      runParse os true ("BASE=x\nSINGLE='$BASE literal?'".data) =
        .ok [("BASE".data, ['x']), ("SINGLE".data, "x literal?".data)] :=
  ⟨parseValue_squoted, fun _ => rfl⟩

/-- C5: resolution order and forward references: a `$NAME` or `${NAME}`
reference (NAME an identifier) resolves to the entry accumulated from earlier
lines when present, otherwise to the external environment, otherwise to the
empty string (`(os name).getD []`); and since entries only become visible
after their own line, parsing "A=${B}\nB=later" with B externally unset
yields A ↦ "" and B ↦ "later". -/
theorem C5_resolution_order (os : Str → Option Str) (env : EnvMap) (name v : Str)
    (hid : identStr name = true) :
    (envLookup env name = some v →
      expandVariables os env ('$' :: name) = v ∧
      expandVariables os env ('$' :: '{' :: (name ++ ['}'])) = v) ∧
    (envLookup env name = none →
      expandVariables os env ('$' :: name) = (os name).getD [] ∧
      expandVariables os env ('$' :: '{' :: (name ++ ['}'])) = (os name).getD []) ∧
    runParse (fun _ => none) true ("A=${B}\nB=later".data) =
      .ok [(['A'], []), (['B'], "later".data)] := by
  have hne : name ≠ [] := by
    cases name with
    | nil => simp [identStr] at hid
    | cons c t => simp
  have hnb : '}' ∉ name :=
    fun hm => identChar_ne (identStr_all hid '}' hm) (by decide) rfl
  refine ⟨?_, ?_, by rfl⟩
  · intro h
    rw [expandVariables_bare os env hid, expandVariables_braced os env hne hnb,
      resolveVar_hit h]
    exact ⟨rfl, rfl⟩
  · intro h
    rw [expandVariables_bare os env hid, expandVariables_braced os env hne hnb,
      resolveVar_miss h]
    exact ⟨rfl, rfl⟩

theorem C5_resolution_order_witness :
    ((envLookup [(['B'], ['w'])] ['B'] = some ['w'] →
      expandVariables (fun _ => some ['z']) [(['B'], ['w'])] ('$' :: ['B']) = ['w'] ∧
      expandVariables (fun _ => some ['z']) [(['B'], ['w'])]
        ('$' :: '{' :: (['B'] ++ ['}'])) = ['w']) ∧
    (envLookup [(['B'], ['w'])] ['B'] = none →
      expandVariables (fun _ => some ['z']) [(['B'], ['w'])] ('$' :: ['B']) =
        (some ['z'] : Option Str).getD [] ∧
      expandVariables (fun _ => some ['z']) [(['B'], ['w'])]
        ('$' :: '{' :: (['B'] ++ ['}'])) = (some ['z'] : Option Str).getD []) ∧
    runParse (fun _ => none) true ("A=${B}\nB=later".data) =
      .ok [(['A'], []), (['B'], "later".data)]) :=
  C5_resolution_order (fun _ => some ['z']) [(['B'], ['w'])] ['B'] ['w'] (by decide)

/-- C6 (counterexample): a `${...}` whose brace content is not an identifier
is still treated as a variable reference: `${a-b}` is substituted (here by
the empty string, the content being unresolvable), not left as-is. -/
theorem C6_nonident_brace_counterexample :
    expandVariables (fun _ => none) [] ("${a-b}".data) = [] ∧
    ("${a-b}".data : Str) ≠ [] := by
  constructor
  · rfl
  · decide

/-- C6 (amended): the expander substitutes every `${body}` whose body is
nonempty and `}`-free — whether or not the body matches the identifier
grammar — and every bare `$NAME` with NAME matching the identifier grammar,
resolving through the accumulated mapping, then the external environment,
then the empty string; `${}` and a lone `$` are left as-is. -/
theorem C6_reference_grammar_amended (os : Str → Option Str) (env : EnvMap)
    (name : Str) (hne : name ≠ []) (hnb : '}' ∉ name) :
    expandVariables os env ('$' :: '{' :: (name ++ ['}'])) = resolveVar os env name ∧
    (identStr name = true →
      expandVariables os env ('$' :: name) = resolveVar os env name) ∧
    expandVariables os env ('$' :: '{' :: '}' :: []) = '$' :: '{' :: '}' :: [] ∧
    expandVariables os env ['$'] = ['$'] :=
  ⟨expandVariables_braced os env hne hnb,
   fun hid => expandVariables_bare os env hid, rfl, rfl⟩

theorem C6_reference_grammar_amended_witness :
    (expandVariables (fun _ => none) [] ('$' :: '{' :: (['x'] ++ ['}'])) =
      resolveVar (fun _ => none) [] ['x'] ∧
    (identStr ['x'] = true →
      expandVariables (fun _ => none) [] ('$' :: ['x']) =
        resolveVar (fun _ => none) [] ['x']) ∧
    expandVariables (fun _ => none) [] ('$' :: '{' :: '}' :: []) =
      '$' :: '{' :: '}' :: [] ∧
    expandVariables (fun _ => none) [] ['$'] = ['$']) :=
  C6_reference_grammar_amended (fun _ => none) [] ['x'] (by decide) (by decide)

/-- C7: the value-decoder escape contract: a double-quoted token is
escape-decoded left to right (`\n`,`\r`,`\t`,`\\`,`\"`,`\'` produce the
corresponding character, any other escaped character is kept as backslash
plus that character, a trailing backslash is a literal backslash), while a
single-quoted token's inner text is returned verbatim. -/
theorem C7_escape_contract :
    (∀ inner : Str, parseValue ('"' :: (inner ++ ['"'])) = unescapeDoubleQuoted inner) ∧
    (∀ inner : Str, parseValue ('\'' :: (inner ++ ['\''])) = inner) ∧
    (∀ rest, unescapeDoubleQuoted ('\\' :: 'n' :: rest) = '\n' :: unescapeDoubleQuoted rest) ∧
    (∀ rest, unescapeDoubleQuoted ('\\' :: 'r' :: rest) = '\r' :: unescapeDoubleQuoted rest) ∧
    (∀ rest, unescapeDoubleQuoted ('\\' :: 't' :: rest) = '\t' :: unescapeDoubleQuoted rest) ∧
    (∀ rest, unescapeDoubleQuoted ('\\' :: '\\' :: rest) = '\\' :: unescapeDoubleQuoted rest) ∧
    (∀ rest, unescapeDoubleQuoted ('\\' :: '"' :: rest) = '"' :: unescapeDoubleQuoted rest) ∧
    (∀ rest, unescapeDoubleQuoted ('\\' :: '\'' :: rest) = '\'' :: unescapeDoubleQuoted rest) ∧
    (∀ (c : Char) (rest : Str), c ∉ (['n', 'r', 't', '\\', '"', '\''] : List Char) →
      unescapeDoubleQuoted ('\\' :: c :: rest) = '\\' :: c :: unescapeDoubleQuoted rest) ∧
    unescapeDoubleQuoted ['\\'] = ['\\'] ∧
    (∀ (c : Char) (rest : Str), ¬ c = '\\' →
      unescapeDoubleQuoted (c :: rest) = c :: unescapeDoubleQuoted rest) := by
  refine ⟨parseValue_dquoted, parseValue_squoted, ?_, ?_, ?_, ?_, ?_, ?_, ?_,
    unescape_trailing, fun c rest h => unescape_plain h rest⟩
  · intro rest; rw [unescape_esc]; rfl
  · intro rest; rw [unescape_esc]; rfl
  · intro rest; rw [unescape_esc]; rfl
  · intro rest; rw [unescape_esc]; rfl
  · intro rest; rw [unescape_esc]; rfl
  · intro rest; rw [unescape_esc]; rfl
  · intro c rest hc
    simp only [List.mem_cons, List.not_mem_nil, or_false, not_or] at hc
    obtain ⟨h1, h2, h3, h4, h5, h6⟩ := hc
    rw [unescape_esc, escPair_unknown h1 h2 h3 h4 h5 h6]
    rfl

theorem C7_escape_contract_witness :
    unescapeDoubleQuoted ('\\' :: 'q' :: "x".data) =
      '\\' :: 'q' :: unescapeDoubleQuoted ("x".data) ∧
    unescapeDoubleQuoted ('z' :: "x".data) = 'z' :: unescapeDoubleQuoted ("x".data) :=
  ⟨C7_escape_contract.2.2.2.2.2.2.2.2.1 'q' ("x".data) (by decide),
   C7_escape_contract.2.2.2.2.2.2.2.2.2.2 'z' ("x".data) (by decide)⟩

/-- C8: quote-aware comment stripping: outside quotes the first `#` truncates
the line (trimming trailing white space of the kept prefix); a `'` or `"`
enters the quoted state; inside quotes `#` is inert and the matching quote
character returns to the unquoted state unless immediately preceded by a
backslash, in which case the region stays quoted and a later `#` is still
inert. -/
theorem C8_comment_stripping (pre inner post : Str) (q : Char)
    (hq : q = '"' ∨ q = '\'')
    (hpre : ∀ c ∈ pre, ¬ c = '#' ∧ ¬ c = '"' ∧ ¬ c = '\'')
    (hin : ∀ c ∈ inner, ¬ c = q)
    (hlast : inner.getLast? ≠ some '\\')
    (hpost : ∀ c ∈ post, ¬ c = q) :
    removeInlineComment (pre ++ '#' :: post) = trimSpace pre ∧
    removeInlineComment (pre ++ q :: (inner ++ q :: '#' :: post)) =
      trimSpace (pre ++ q :: (inner ++ [q])) ∧
    removeInlineComment (pre ++ q :: (inner ++ '\\' :: q :: '#' :: post)) =
      pre ++ q :: (inner ++ '\\' :: q :: '#' :: post) :=
  ⟨strip_comment_unquoted hpre,
   strip_comment_after_close hq hpre hin hlast,
   strip_escaped_quote_stays hq hpre hin hpost⟩

theorem C8_comment_stripping_witness :
    removeInlineComment ("A=".data ++ '#' :: " tail".data) = trimSpace ("A=".data) ∧
    removeInlineComment ("A=".data ++ '"' :: ("b # c".data ++ '"' :: '#' :: " tail".data)) =
      trimSpace ("A=".data ++ '"' :: ("b # c".data ++ ['"'])) ∧
    removeInlineComment
        ("A=".data ++ '"' :: ("b # c".data ++ '\\' :: '"' :: '#' :: " tail".data)) =
      "A=".data ++ '"' :: ("b # c".data ++ '\\' :: '"' :: '#' :: " tail".data) :=
  C8_comment_stripping ("A=".data) ("b # c".data) (" tail".data) '"'
    (Or.inl rfl) (by decide) (by decide) (by decide) (by decide)

/-- C9: encoder contract (the Go function's error result is always `nil`,
modelled by `Marshal` being a total function): the output is the
newline-join of exactly one spec-described line per key — `KEY=value`
verbatim when the value is nonempty and special-character-free, otherwise
`KEY="escaped"` with backslash, quote, newline, carriage return and tab
escaped — over the keys in ascending lexicographic order (a permutation of
the mapping's keys); the empty mapping encodes to the empty string; and a
spec line for an identifier key contains no newline, so the join has one
line per key and no trailing newline. -/
theorem C9_encoder_contract (env : EnvMap) (k v : Str) (hk : identStr k = true) :
    Marshal env = joinSep ['\n'] ((sortStrs (env.map Prod.fst)).map
      (fun key => specLine key ((envLookup env key).getD []))) ∧
    (sortStrs (env.map Prod.fst)).Perm (env.map Prod.fst) ∧
    List.Pairwise strLe (sortStrs (env.map Prod.fst)) ∧
    Marshal [] = [] ∧
    '\n' ∉ specLine k v :=
  ⟨Marshal_eq_spec env, sortStrs_perm _, sortStrs_sorted _, rfl,
   specLine_no_newline hk v⟩

theorem C9_encoder_contract_witness :
    Marshal [(['B'], []), (['A'], "x y".data)] =
      joinSep ['\n'] ((sortStrs ([(['B'], []), (['A'], "x y".data)].map Prod.fst)).map
        (fun key => specLine key ((envLookup [(['B'], []), (['A'], "x y".data)] key).getD []))) ∧
    (sortStrs ([(['B'], []), (['A'], "x y".data)].map Prod.fst)).Perm
      ([(['B'], []), (['A'], "x y".data)].map Prod.fst) ∧
    List.Pairwise strLe (sortStrs ([(['B'], []), (['A'], "x y".data)].map Prod.fst)) ∧
    Marshal [] = [] ∧
    '\n' ∉ specLine ['K'] ("a b".data) :=
  C9_encoder_contract [(['B'], []), (['A'], "x y".data)] ['K'] ("a b".data) (by decide)

/-- C10: an unterminated quote suppresses comment stripping — a line in which
a quote opens and is never closed is returned unchanged, so no later `#`
starts a comment — and consequently `Parse "A='b # c"` succeeds and maps A to
the literal string `'b # c`, opening quote and `#` included (the unpaired
value is not treated as quoted by the decoder either). -/
theorem C10_unterminated_quote (pre rest : Str) (q : Char)
    (hq : q = '"' ∨ q = '\'')
    (hpre : ∀ c ∈ pre, ¬ c = '#' ∧ ¬ c = '"' ∧ ¬ c = '\'')
    (hrest : ∀ c ∈ rest, ¬ c = q) :
    removeInlineComment (pre ++ q :: rest) = pre ++ q :: rest ∧
    runParse (fun _ => none) true ("A='b # c".data) =
      .ok [(['A'], "'b # c".data)] :=
  ⟨strip_unterminated hq hpre hrest, rfl⟩

theorem C10_unterminated_quote_witness :
    removeInlineComment ("A=".data ++ '\'' :: "b # c".data) =
      "A=".data ++ '\'' :: "b # c".data ∧
    runParse (fun _ => none) true ("A='b # c".data) =
      .ok [(['A'], "'b # c".data)] :=
  C10_unterminated_quote ("A=".data) ("b # c".data) '\''
    (Or.inr rfl) (by decide) (by decide)
